import Mathlib

/-!
Verification of the similarity-search and collage-synthesis core of the
personal-voice-tts repository.  The Python source is shallowly embedded:
times, similarities and sample values are modelled as exact rationals,
Python `sorted` (a stable sort) is modelled by `List.insertionSort` with a
total preorder (which is stable in the same sense), and fallible code is
modelled with `Option`/`Except`.
-/

namespace VoiceTTS

/-- Embeds `SimilarityMatch` from `src/algorithms/base.py` (times in
seconds, `similarity` and `confidence` scores).  The free-form metadata
dictionary is dropped except where a later stage reads a field from it. -/
structure SimilarityMatch where
  target_start : ℚ
  target_end : ℚ
  source_start : ℚ
  source_end : ℚ
  similarity : ℚ
  confidence : ℚ
deriving DecidableEq, Repr

/-- Ordering used by `sorted(matches, key=lambda x: x.similarity, reverse=True)`:
`a` may come before `b` iff `a`'s similarity is at least `b`'s. -/
def simGE (a b : SimilarityMatch) : Prop :=
  b.similarity ≤ a.similarity

/-- Ordering used by `filtered.sort(key=lambda x: x.source_start)`. -/
def startLE (a b : SimilarityMatch) : Prop :=
  a.source_start ≤ b.source_start

instance : DecidableRel simGE := fun _ _ => inferInstanceAs (Decidable (_ ≤ _))

instance : DecidableRel startLE := fun _ _ => inferInstanceAs (Decidable (_ ≤ _))

instance : IsTotal SimilarityMatch simGE := ⟨fun a b => le_total b.similarity a.similarity⟩

instance : IsTrans SimilarityMatch simGE := ⟨fun _ _ _ h h2 => le_trans h2 h⟩

instance : IsTotal SimilarityMatch startLE := ⟨fun a b => le_total a.source_start b.source_start⟩

instance : IsTrans SimilarityMatch startLE := ⟨fun _ _ _ h h2 => le_trans h h2⟩

/-- Embeds `SegmentMatcher._compute_overlap` (src/core/similarity/matcher.py):
overlap ratio of two intervals, `overlap_duration / min(duration1, duration2)`,
`0` when the intervals are disjoint or the shorter duration is not positive. -/
def compute_overlap (start1 end1 start2 end2 : ℚ) : ℚ :=
  let overlap_start := max start1 start2
  let overlap_end := min end1 end2
  if overlap_end ≤ overlap_start then 0
  else
    let overlap_duration := overlap_end - overlap_start
    let min_duration := min (end1 - start1) (end2 - start2)
    if 0 < min_duration then overlap_duration / min_duration else 0

/-- Overlap ratio of two matches in source-time coordinates. -/
def overlapSource (a b : SimilarityMatch) : ℚ :=
  compute_overlap a.source_start a.source_end b.source_start b.source_end

/-- The greedy keep-loop of `SegmentMatcher.remove_overlaps`: walk the
similarity-sorted candidates, appending a candidate to the accumulator
unless its overlap ratio against some already-kept candidate exceeds the
threshold `t`. -/
def greedyKeep (t : ℚ) : List SimilarityMatch → List SimilarityMatch → List SimilarityMatch
  | acc, [] => acc
  | acc, m :: rest =>
    if acc.any (fun e => decide (t < overlapSource m e)) then greedyKeep t acc rest
    else greedyKeep t (acc ++ [m]) rest

/-- Embeds `SegmentMatcher.remove_overlaps` in `mode='source'`
(src/core/similarity/matcher.py): sort by similarity descending, greedily
drop candidates whose overlap ratio against a kept candidate exceeds the
threshold, then re-sort the kept matches by `source_start`. -/
def remove_overlaps (t : ℚ) (ms : List SimilarityMatch) : List SimilarityMatch :=
  if ms = [] then []
  else
    let sorted := List.insertionSort simGE ms
    let filtered := greedyKeep t [] sorted
    List.insertionSort startLE filtered

theorem overlapSource_comm (a b : SimilarityMatch) :
    overlapSource a b = overlapSource b a := by
  unfold overlapSource compute_overlap
  rw [max_comm, min_comm, min_comm (a.source_end - a.source_start)]

/-- Membership in the greedy keep-loop output comes from the accumulator or
the remaining input. -/
theorem greedyKeep_mem {t : ℚ} :
    ∀ {rest acc : List SimilarityMatch} {x : SimilarityMatch},
      x ∈ greedyKeep t acc rest → x ∈ acc ∨ x ∈ rest
  | [], acc, x, h => Or.inl h
  | m :: rest, acc, x, h => by
    unfold greedyKeep at h
    split at h
    · rcases greedyKeep_mem h with h1 | h1
      · exact Or.inl h1
      · exact Or.inr (List.mem_cons_of_mem _ h1)
    · rcases greedyKeep_mem h with h1 | h1
      · rcases List.mem_append.1 h1 with h2 | h2
        · exact Or.inl h2
        · exact Or.inr (List.mem_cons.2 (Or.inl (List.mem_singleton.1 h2)))
      · exact Or.inr (List.mem_cons_of_mem _ h1)

/-- Kept matches have pairwise overlap ratio at most the threshold. -/
theorem greedyKeep_pairwise {t : ℚ} :
    ∀ {rest acc : List SimilarityMatch},
      acc.Pairwise (fun a b => overlapSource a b ≤ t) →
      (greedyKeep t acc rest).Pairwise (fun a b => overlapSource a b ≤ t)
  | [], _, hacc => hacc
  | m :: rest, acc, hacc => by
    unfold greedyKeep
    split
    · exact greedyKeep_pairwise hacc
    · next hnot =>
      apply greedyKeep_pairwise
      rw [List.pairwise_append]
      refine ⟨hacc, List.pairwise_singleton _ _, ?_⟩
      intro a ha b hb
      rw [List.mem_singleton] at hb
      subst hb
      simp only [List.any_eq_true, decide_eq_true_eq, not_exists, not_and] at hnot
      have := hnot a ha
      rw [overlapSource_comm]
      exact le_of_not_lt this

/-- Every match kept by `remove_overlaps` is one of the input matches. -/
theorem remove_overlaps_subset {t : ℚ} {ms : List SimilarityMatch} :
    ∀ {m : SimilarityMatch}, m ∈ remove_overlaps t ms → m ∈ ms := by
  intro m hm
  unfold remove_overlaps at hm
  split at hm
  · exact absurd hm (List.not_mem_nil m)
  · rw [List.mem_insertionSort] at hm
    rcases greedyKeep_mem hm with h | h
    · exact absurd h (List.not_mem_nil m)
    · exact (List.mem_insertionSort _).1 h

/-- Any two matches kept by `remove_overlaps` have overlap ratio at most
the threshold. -/
theorem remove_overlaps_pairwise (t : ℚ) (ms : List SimilarityMatch) :
    (remove_overlaps t ms).Pairwise (fun a b => overlapSource a b ≤ t) := by
  unfold remove_overlaps
  split
  · exact List.Pairwise.nil
  · have hperm := List.perm_insertionSort startLE
      (greedyKeep t [] (List.insertionSort simGE ms))
    refine (hperm.pairwise_iff ?_).2 (greedyKeep_pairwise List.Pairwise.nil)
    intro x y h
    rw [overlapSource_comm]
    exact h

/-- The output of `remove_overlaps` is sorted by `source_start` ascending. -/
theorem remove_overlaps_sorted (t : ℚ) (ms : List SimilarityMatch) :
    (remove_overlaps t ms).Sorted startLE := by
  unfold remove_overlaps
  split
  · exact List.sorted_nil
  · exact List.sorted_insertionSort startLE _

/-- Concrete match used in counterexamples: source interval `[0, 2]`,
similarity `0.9`. -/
def exA : SimilarityMatch := ⟨0, 1, 0, 2, 9/10, 1⟩

/-- Concrete match used in counterexamples: source interval `[1, 3]`,
similarity `0.8`; its overlap ratio against `exA` is exactly `1/2`. -/
def exB : SimilarityMatch := ⟨0, 1, 1, 3, 8/10, 1⟩

/-- With the default threshold `0.5`, `remove_overlaps` keeps both `exA`
and `exB`: their overlap ratio equals the threshold exactly and the code
only drops a candidate when the ratio strictly exceeds the threshold. -/
theorem remove_overlaps_exA_exB : remove_overlaps (1/2) [exA, exB] = [exA, exB] := by
  norm_num [remove_overlaps, greedyKeep, List.insertionSort, List.orderedInsert,
    simGE, startLE, overlapSource, compute_overlap, exA, exB]

theorem overlapSource_exA_exB : overlapSource exA exB = 1/2 := by
  norm_num [overlapSource, compute_overlap, exA, exB]

/-- C2: the claim as stated is false: `remove_overlaps` in source mode can
keep two matches whose overlap ratio equals the threshold, so the kept
pairs do not all have ratio strictly below the threshold. -/
theorem remove_overlaps_strict_counterexample :
    ¬ (remove_overlaps (1/2) [exA, exB]).Pairwise
      (fun a b => overlapSource a b < 1/2) := by
  rw [remove_overlaps_exA_exB]
  intro hp
  rcases List.pairwise_cons.1 hp with ⟨h1, _⟩
  have h2 := h1 exB (List.mem_singleton_self exB)
  rw [overlapSource_exA_exB] at h2
  exact lt_irrefl _ h2

/-- C2 (amended): `remove_overlaps` in source mode returns a subset of its
input in which every pair of kept matches has overlap ratio at most (not
strictly below) `overlap_threshold`, ordered by `source_start` ascending. -/
theorem remove_overlaps_source_spec (t : ℚ) (ms : List SimilarityMatch) :
    (∀ m ∈ remove_overlaps t ms, m ∈ ms) ∧
    (remove_overlaps t ms).Pairwise (fun a b => overlapSource a b ≤ t) ∧
    (remove_overlaps t ms).Sorted startLE :=
  ⟨fun _ h => remove_overlaps_subset h, remove_overlaps_pairwise t ms,
    remove_overlaps_sorted t ms⟩

/-- C2 witness: the subset property of `remove_overlaps` instantiated on a
concrete input. -/
theorem remove_overlaps_source_spec_witness : exA ∈ [exA, exB] :=
  (remove_overlaps_source_spec (1/2) [exA, exB]).1 exA
    (by rw [remove_overlaps_exA_exB]; exact List.mem_cons_self _ _)

/-- Order by `source_start` ascending, breaking ties by similarity
descending: the shape of `remove_overlaps` output. -/
def lexSS (a b : SimilarityMatch) : Prop :=
  a.source_start < b.source_start ∨
    (a.source_start = b.source_start ∧ b.similarity ≤ a.similarity)

theorem lexSS_start_le {x y : SimilarityMatch} (h : lexSS x y) :
    x.source_start ≤ y.source_start :=
  h.elim le_of_lt (fun h2 => le_of_eq h2.1)

/-- Inserting a match of maximal similarity by `source_start` into a
`lexSS`-sorted list keeps the list `lexSS`-sorted. -/
theorem orderedInsert_startLE_lex {a : SimilarityMatch} :
    ∀ {Z : List SimilarityMatch}, Z.Sorted lexSS →
      (∀ b ∈ Z, b.similarity ≤ a.similarity) →
      (List.orderedInsert startLE a Z).Sorted lexSS
  | [], _, _ => List.sorted_singleton a
  | b :: Z, hZ, hsim => by
    rw [List.orderedInsert]
    split
    · next hab =>
      rw [List.sorted_cons]
      refine ⟨?_, hZ⟩
      intro c hc
      have hbc : b.source_start ≤ c.source_start := by
        rcases List.mem_cons.1 hc with hc1 | hc1
        · subst hc1; exact le_refl _
        · exact lexSS_start_le (List.rel_of_sorted_cons hZ c hc1)
      have hac : a.source_start ≤ c.source_start := le_trans hab hbc
      rcases lt_or_eq_of_le hac with h1 | h1
      · exact Or.inl h1
      · exact Or.inr ⟨h1, hsim c hc⟩
    · next hab =>
      rw [List.sorted_cons]
      constructor
      · intro c hc
        rcases (List.mem_orderedInsert startLE).1 hc with hc1 | hc1
        · subst hc1
          exact Or.inl (lt_of_not_le hab)
        · exact List.rel_of_sorted_cons hZ c hc1
      · exact orderedInsert_startLE_lex hZ.of_cons
          (fun c hc => hsim c (List.mem_cons_of_mem b hc))

/-- Stable-sorting a similarity-descending list by `source_start` yields a
list sorted by `source_start` with ties still similarity-descending. -/
theorem sortStart_lex :
    ∀ {N : List SimilarityMatch}, N.Sorted simGE →
      (List.insertionSort startLE N).Sorted lexSS
  | [], _ => List.sorted_nil
  | a :: N, hN => by
    rw [List.insertionSort]
    refine orderedInsert_startLE_lex (sortStart_lex hN.of_cons) ?_
    intro b hb
    exact List.rel_of_sorted_cons hN b ((List.mem_insertionSort startLE).1 hb)

/-- Inserting an element placed in the middle of the input back to the
front: if everything left of `a` has strictly larger `source_start` and
everything right of `a` has `source_start` at least `a`'s, then sorting by
`source_start` brings `a` to the head. -/
theorem insertionSort_startLE_middle {a : SimilarityMatch} :
    ∀ (Y1 : List SimilarityMatch) {Y2 : List SimilarityMatch},
      (∀ y ∈ Y1, ¬ startLE y a) → (∀ b ∈ Y2, startLE a b) →
      List.insertionSort startLE (Y1 ++ a :: Y2) =
        a :: List.insertionSort startLE (Y1 ++ Y2)
  | [], Y2, _, h2 => by
    rw [List.nil_append, List.nil_append]
    exact List.insertionSort_cons startLE h2
  | y :: Y1, Y2, h1, h2 => by
    rw [List.cons_append, List.insertionSort,
      insertionSort_startLE_middle Y1 (fun z hz => h1 z (List.mem_cons_of_mem y hz)) h2,
      List.orderedInsert, if_neg (h1 y (List.mem_cons_self y Y1)), List.cons_append,
      List.insertionSort]

/-- Re-sorting a `lexSS`-sorted list by similarity descending and then by
`source_start` ascending reproduces the list: the two stable sorts cancel
on the canonical output shape of `remove_overlaps`. -/
theorem sortStart_sortSim_of_lexSorted :
    ∀ {L : List SimilarityMatch}, L.Sorted lexSS →
      List.insertionSort startLE (List.insertionSort simGE L) = L
  | [], _ => rfl
  | a :: L, hL => by
    rw [List.insertionSort, List.orderedInsert_eq_take_drop]
    have hmem : ∀ b ∈ List.insertionSort simGE L, b ∈ L :=
      fun b hb => (List.mem_insertionSort simGE).1 hb
    have htake : ∀ y ∈ (List.insertionSort simGE L).takeWhile
        (fun b => decide (¬ simGE a b)), ¬ startLE y a := by
      intro y hy
      have hyL : y ∈ L := hmem y (List.takeWhile_subset _ hy)
      have hpred := List.mem_takeWhile_imp hy
      rw [decide_eq_true_eq] at hpred
      have hsim : a.similarity < y.similarity := lt_of_not_le hpred
      rcases List.rel_of_sorted_cons hL y hyL with h1 | h1
      · exact fun hc => absurd (lt_of_le_of_lt hc h1) (lt_irrefl _)
      · exact absurd h1.2 (not_le_of_lt hsim)
    have hdrop : ∀ b ∈ (List.insertionSort simGE L).dropWhile
        (fun b => decide (¬ simGE a b)), startLE a b := by
      intro b hb
      have hbL : b ∈ L := hmem b (List.dropWhile_subset _ hb)
      exact lexSS_start_le (List.rel_of_sorted_cons hL b hbL)
    rw [insertionSort_startLE_middle _ htake hdrop, List.takeWhile_append_dropWhile,
      sortStart_sortSim_of_lexSorted hL.of_cons]

/-- When the input is already pairwise non-overlapping (ratio at most the
threshold) and compatible with the accumulator, the greedy loop keeps
everything. -/
theorem greedyKeep_of_pairwise {t : ℚ} :
    ∀ {L acc : List SimilarityMatch},
      L.Pairwise (fun a b => overlapSource a b ≤ t) →
      (∀ m ∈ L, ∀ e ∈ acc, overlapSource m e ≤ t) →
      greedyKeep t acc L = acc ++ L
  | [], acc, _, _ => (List.append_nil acc).symm
  | m :: L, acc, hL, hacc => by
    unfold greedyKeep
    rw [if_neg]
    · rw [greedyKeep_of_pairwise hL.of_cons, List.append_assoc, List.singleton_append]
      intro x hx e he
      rcases List.mem_append.1 he with he1 | he1
      · exact hacc x (List.mem_cons_of_mem m hx) e he1
      · rw [List.mem_singleton] at he1
        subst he1
        rw [overlapSource_comm]
        exact List.rel_of_pairwise_cons hL hx
    · simp only [List.any_eq_true, decide_eq_true_eq, not_exists, not_and]
      intro e he
      exact not_lt_of_le (hacc m (List.mem_cons_self m L) e he)

/-- The greedy loop appends some sublist of its input to the accumulator. -/
theorem greedyKeep_sublist {t : ℚ} :
    ∀ (rest acc : List SimilarityMatch),
      ∃ l, l.Sublist rest ∧ greedyKeep t acc rest = acc ++ l
  | [], acc => ⟨[], List.nil_sublist [], (List.append_nil acc).symm⟩
  | m :: rest, acc => by
    unfold greedyKeep
    split
    · rcases greedyKeep_sublist rest acc with ⟨l, hl, he⟩
      exact ⟨l, hl.cons m, he⟩
    · rcases greedyKeep_sublist rest (acc ++ [m]) with ⟨l, hl, he⟩
      refine ⟨m :: l, hl.cons₂ m, ?_⟩
      rw [he, List.append_assoc, List.singleton_append]

/-- The pairwise non-overlap property transfers across any permutation. -/
theorem pairwise_overlap_of_perm {t : ℚ} {l1 l2 : List SimilarityMatch}
    (hp : l1.Perm l2) (h : l1.Pairwise (fun a b => overlapSource a b ≤ t)) :
    l2.Pairwise (fun a b => overlapSource a b ≤ t) := by
  refine (hp.pairwise_iff ?_).1 h
  intro x y hxy
  rw [overlapSource_comm]
  exact hxy

/-- C10: `remove_overlaps` in source mode is idempotent: applied to its own
output it returns that output unchanged, elementwise and in order. -/
theorem remove_overlaps_idempotent (t : ℚ) (ms : List SimilarityMatch) :
    remove_overlaps t (remove_overlaps t ms) = remove_overlaps t ms := by
  by_cases h0 : ms = []
  · subst h0
    rfl
  · have houter : remove_overlaps t ms =
        List.insertionSort startLE (greedyKeep t [] (List.insertionSort simGE ms)) := by
      unfold remove_overlaps
      rw [if_neg h0]
    rcases greedyKeep_sublist (t := t) (List.insertionSort simGE ms) [] with ⟨l, hl, he⟩
    rw [List.nil_append] at he
    have hNsorted : (greedyKeep t [] (List.insertionSort simGE ms)).Sorted simGE := by
      rw [he]
      exact (List.sorted_insertionSort simGE ms).sublist hl
    have hNpair : (greedyKeep t [] (List.insertionSort simGE ms)).Pairwise
        (fun a b => overlapSource a b ≤ t) :=
      greedyKeep_pairwise List.Pairwise.nil
    set L := remove_overlaps t ms with hLdef
    by_cases hL : L = []
    · rw [hL]
      rfl
    · have hLperm : L.Perm (greedyKeep t [] (List.insertionSort simGE ms)) := by
        rw [houter]
        exact List.perm_insertionSort startLE _
      have hLpair : L.Pairwise (fun a b => overlapSource a b ≤ t) :=
        pairwise_overlap_of_perm hLperm.symm hNpair
      have hLlex : L.Sorted lexSS := by
        rw [houter]
        exact sortStart_lex hNsorted
      have hsortpair : (List.insertionSort simGE L).Pairwise
          (fun a b => overlapSource a b ≤ t) :=
        pairwise_overlap_of_perm (List.perm_insertionSort simGE L).symm hLpair
      have hkeep : greedyKeep t [] (List.insertionSort simGE L) =
          List.insertionSort simGE L := by
        rw [greedyKeep_of_pairwise hsortpair (fun m _ e he => absurd he (List.not_mem_nil e)),
          List.nil_append]
      unfold remove_overlaps
      rw [if_neg hL]
      show List.insertionSort startLE (greedyKeep t [] (List.insertionSort simGE L)) = L
      rw [hkeep, sortStart_sortSim_of_lexSorted hLlex]

/-- Ordering used by `sorted(filtered, key=lambda x: (x.similarity,
x.confidence), reverse=True)`: descending lexicographic order on the pair
(similarity, confidence). -/
def lexGE (a b : SimilarityMatch) : Prop :=
  b.similarity < a.similarity ∨
    (b.similarity = a.similarity ∧ b.confidence ≤ a.confidence)

instance : DecidableRel lexGE := fun _ _ =>
  inferInstanceAs (Decidable (_ ∨ _ ∧ _))

instance : IsTotal SimilarityMatch lexGE := by
  constructor
  intro a b
  rcases lt_trichotomy a.similarity b.similarity with h | h | h
  · exact Or.inr (Or.inl h)
  · rcases le_total a.confidence b.confidence with hc | hc
    · exact Or.inr (Or.inr ⟨h, hc⟩)
    · exact Or.inl (Or.inr ⟨h.symm, hc⟩)
  · exact Or.inl (Or.inl h)

instance : IsTrans SimilarityMatch lexGE := by
  constructor
  intro a b c hab hbc
  rcases hab with h1 | ⟨h1, h1c⟩
  · rcases hbc with h2 | ⟨h2, _⟩
    · exact Or.inl (lt_trans h2 h1)
    · exact Or.inl (lt_of_le_of_lt (le_of_eq h2) h1)
  · rcases hbc with h2 | ⟨h2, h2c⟩
    · exact Or.inl (lt_of_lt_of_le h2 (le_of_eq h1))
    · exact Or.inr ⟨h2.trans h1, le_trans h2c h1c⟩

/-- Embeds `BaseSimilarityAlgorithm._filter_matches`
(src/algorithms/base.py): drop matches below either threshold, sort the
survivors by `(similarity, confidence)` descending, and truncate to
`top_k` only when `top_k` is given and positive. -/
def filter_matches (similarity_threshold confidence_threshold : ℚ)
    (ms : List SimilarityMatch) (top_k : Option ℤ) : List SimilarityMatch :=
  let filtered := ms.filter fun m =>
    decide (similarity_threshold ≤ m.similarity) &&
      decide (confidence_threshold ≤ m.confidence)
  let sorted := List.insertionSort lexGE filtered
  match top_k with
  | some k => if 0 < k then sorted.take k.toNat else sorted
  | none => sorted

/-- C3: the claim as stated is false: with `top_k = 0` the guard
`top_k > 0` in `_filter_matches` skips truncation, so the routine can
return more than `top_k` matches. -/
theorem filter_matches_topk_zero_counterexample :
    ¬ ((filter_matches 0 0 [exA] (some 0)).length ≤ 0) := by
  norm_num [filter_matches, List.insertionSort, List.orderedInsert, List.filter, exA]

/-- C3 (amended): for every positive `top_k`, `_filter_matches` returns at
most `top_k` matches drawn from its input, each meeting both thresholds,
sorted by `(similarity, confidence)` descending. -/
theorem filter_matches_spec (st ct : ℚ) (ms : List SimilarityMatch) (k : ℤ)
    (hk : 0 < k) :
    ((filter_matches st ct ms (some k)).length : ℤ) ≤ k ∧
    (∀ m ∈ filter_matches st ct ms (some k),
      m ∈ ms ∧ st ≤ m.similarity ∧ ct ≤ m.confidence) ∧
    (filter_matches st ct ms (some k)).Sorted lexGE := by
  have heq : filter_matches st ct ms (some k) =
      (List.insertionSort lexGE (ms.filter fun m =>
        decide (st ≤ m.similarity) && decide (ct ≤ m.confidence))).take k.toNat := by
    show (if 0 < k then
        (List.insertionSort lexGE (ms.filter fun m =>
          decide (st ≤ m.similarity) && decide (ct ≤ m.confidence))).take k.toNat
      else List.insertionSort lexGE (ms.filter fun m =>
        decide (st ≤ m.similarity) && decide (ct ≤ m.confidence))) = _
    rw [if_pos hk]
  refine ⟨?_, ?_, ?_⟩
  · rw [heq]
    calc ((List.insertionSort lexGE _).take k.toNat).length ≤ (k.toNat : ℤ) := by
          exact_mod_cast List.length_take_le k.toNat _
      _ = k := Int.toNat_of_nonneg (le_of_lt hk)
  · intro m hm
    rw [heq] at hm
    have hm2 := (List.mem_insertionSort lexGE).1 (List.take_subset _ _ hm)
    rw [List.mem_filter] at hm2
    rcases hm2 with ⟨hmem, hp⟩
    rw [Bool.and_eq_true, decide_eq_true_eq, decide_eq_true_eq] at hp
    exact ⟨hmem, hp.1, hp.2⟩
  · rw [heq]
    exact (List.sorted_insertionSort lexGE _).sublist (List.take_sublist _ _)

/-- C3 witness: the truncation bound at a concrete input. -/
theorem filter_matches_spec_witness :
    ((filter_matches 0 0 [exA] (some 1)).length : ℤ) ≤ 1 :=
  (filter_matches_spec 0 0 [exA] 1 (by norm_num)).1

/-- A match tagged by the ensemble loop of
`AlgorithmManager.ensemble_find_segments` with its algorithm's normalized
weight (stored in the metadata dictionary in the source). -/
structure WeightedMatch where
  wmatch : SimilarityMatch
  weight : ℚ
deriving DecidableEq, Repr

/-- Ordering used by `sorted(matches, key=lambda x: x.source_start)` in
`_group_similar_matches`. -/
def wStartLE (a b : WeightedMatch) : Prop :=
  a.wmatch.source_start ≤ b.wmatch.source_start

instance : DecidableRel wStartLE := fun _ _ => inferInstanceAs (Decidable (_ ≤ _))

instance : IsTotal WeightedMatch wStartLE :=
  ⟨fun a b => le_total a.wmatch.source_start b.wmatch.source_start⟩

instance : IsTrans WeightedMatch wStartLE := ⟨fun _ _ _ h h2 => le_trans h h2⟩

/-- Arithmetic mean, as computed by `np.mean` on a nonempty list. -/
def listMean (xs : List ℚ) : ℚ := xs.sum / xs.length

/-- The left-to-right scan of `AlgorithmManager._group_similar_matches`:
append the next match to the current group when both its source start and
end lie within the tolerance of the running group averages, otherwise
close the group and start a new one. -/
def groupLoop (tol : ℚ) : List WeightedMatch → List WeightedMatch → List (List WeightedMatch)
  | current, [] => [current]
  | current, m :: rest =>
    let avg_start := listMean (current.map fun x => x.wmatch.source_start)
    let avg_end := listMean (current.map fun x => x.wmatch.source_end)
    if |m.wmatch.source_start - avg_start| < tol ∧ |m.wmatch.source_end - avg_end| < tol then
      groupLoop tol (current ++ [m]) rest
    else
      current :: groupLoop tol [m] rest

/-- Embeds `AlgorithmManager._group_similar_matches`
(src/core/similarity/manager.py): sort all matches by `source_start`, then
run the greedy grouping scan starting from the first match. -/
def group_similar_matches (tol : ℚ) (ms : List WeightedMatch) :
    List (List WeightedMatch) :=
  match List.insertionSort wStartLE ms with
  | [] => []
  | first :: rest => groupLoop tol [first] rest

/-- The voting methods accepted by `ensemble_find_segments`; any other
string raises a ValueError in the source. -/
inductive VotingMethod
  | weighted_average
  | max_vote
  | min_vote
deriving DecidableEq, Repr

/-- The per-group fusion step of `ensemble_find_segments`: the ensemble
similarity is a weighted average (guarded against non-positive total
weight), maximum, or minimum of the group's similarities; the time range
is taken from the group's first highest-similarity member; the confidence
is the group size over the number of requested algorithms.  The source
never reaches this code with an empty group. -/
def fuse_group (voting : VotingMethod) (num_algorithms : ℕ) :
    List WeightedMatch → Option SimilarityMatch
  | [] => none
  | x :: xs =>
    let ensemble_sim : ℚ :=
      match voting with
      | .weighted_average =>
        let total_weight := ((x :: xs).map fun m => m.weight).sum
        if 0 < total_weight then
          (((x :: xs).map fun m => m.wmatch.similarity * m.weight).sum) / total_weight
        else 0
      | .max_vote => xs.foldl (fun acc m => max acc m.wmatch.similarity) x.wmatch.similarity
      | .min_vote => xs.foldl (fun acc m => min acc m.wmatch.similarity) x.wmatch.similarity
    let best := xs.foldl (fun b m => if b.wmatch.similarity < m.wmatch.similarity then m else b) x
    some { target_start := best.wmatch.target_start
           target_end := best.wmatch.target_end
           source_start := best.wmatch.source_start
           source_end := best.wmatch.source_end
           similarity := ensemble_sim
           confidence := ((x :: xs).length : ℚ) / (num_algorithms : ℚ) }

/-- Embeds the fusion-and-ranking tail of
`AlgorithmManager.ensemble_find_segments`
(src/core/similarity/manager.py): group the concatenated per-algorithm
matches, fuse each temporal group into one ensemble match, sort the
ensemble matches by similarity descending and keep the first `top_k`. -/
def ensemble_fuse (voting : VotingMethod) (num_algorithms : ℕ) (tol : ℚ)
    (top_k : ℕ) (all_matches : List WeightedMatch) : List SimilarityMatch :=
  let grouped := group_similar_matches tol all_matches
  let ensemble := grouped.filterMap (fuse_group voting num_algorithms)
  (List.insertionSort simGE ensemble).take top_k

/-- Two identical weighted copies of `exA` (as produced when one algorithm
reports two overlapping windows of the same region) form a single temporal
group, and the fused match receives confidence `2 / 1 = 2`. -/
theorem ensemble_fuse_two_votes_one_algorithm :
    ensemble_fuse VotingMethod.weighted_average 1 (1/2) 10
      [⟨exA, 1⟩, ⟨exA, 1⟩] = [⟨0, 1, 0, 2, 9/10, 2⟩] := by
  norm_num [ensemble_fuse, group_similar_matches, groupLoop, fuse_group, listMean,
    List.insertionSort, List.orderedInsert, wStartLE, simGE, exA, List.filterMap]

/-- C1: the claim as stated is false: a temporal group can contain more
matches than algorithms requested, in which case the fused confidence
`group size / algorithms requested` exceeds 1. -/
theorem ensemble_confidence_counterexample :
    ¬ (∀ m ∈ ensemble_fuse VotingMethod.weighted_average 1 (1/2) 10
        [⟨exA, 1⟩, ⟨exA, 1⟩], m.confidence ≤ 1) := by
  rw [ensemble_fuse_two_votes_one_algorithm]
  intro h
  have h2 := h _ (List.mem_singleton_self _)
  norm_num at h2

/-- C1 (amended): every fused ensemble match's confidence equals the size
of its temporal group divided by the number of algorithms requested; it is
always nonnegative, and it is at most 1 exactly when the group holds at
most as many matches as algorithms requested (which can fail when one
algorithm contributes several matches to a group). -/
theorem ensemble_confidence_spec (voting : VotingMethod) (num_algorithms : ℕ)
    (tol : ℚ) (top_k : ℕ) (all_matches : List WeightedMatch)
    (hn : 0 < num_algorithms) :
    ∀ m ∈ ensemble_fuse voting num_algorithms tol top_k all_matches,
      ∃ g ∈ group_similar_matches tol all_matches,
        m.confidence = (g.length : ℚ) / (num_algorithms : ℚ) ∧
        0 ≤ m.confidence ∧
        (g.length ≤ num_algorithms → m.confidence ≤ 1) := by
  intro m hm
  unfold ensemble_fuse at hm
  have hm2 := (List.mem_insertionSort simGE).1 (List.take_subset _ _ hm)
  rw [List.mem_filterMap] at hm2
  rcases hm2 with ⟨g, hg, hfuse⟩
  refine ⟨g, hg, ?_⟩
  have hconf : m.confidence = (g.length : ℚ) / (num_algorithms : ℚ) := by
    rcases g with _ | ⟨x, xs⟩
    · exact absurd hfuse (by simp [fuse_group])
    · unfold fuse_group at hfuse
      have := Option.some.inj hfuse
      rw [← this]
  refine ⟨hconf, ?_, ?_⟩
  · rw [hconf]
    exact div_nonneg (by positivity) (by positivity)
  · intro hlen
    rw [hconf]
    rw [div_le_one (by exact_mod_cast hn)]
    exact_mod_cast hlen

/-- C1 witness: the amended confidence property at a concrete ensemble
run with one algorithm and one match. -/
theorem ensemble_confidence_spec_witness :
    ∃ g ∈ group_similar_matches (1/2) [(⟨exA, 1⟩ : WeightedMatch)],
      (⟨0, 1, 0, 2, 9/10, 1⟩ : SimilarityMatch).confidence = (g.length : ℚ) / ((1 : ℕ) : ℚ) ∧
      (0 : ℚ) ≤ (⟨0, 1, 0, 2, 9/10, 1⟩ : SimilarityMatch).confidence ∧
      (g.length ≤ 1 → (⟨0, 1, 0, 2, 9/10, 1⟩ : SimilarityMatch).confidence ≤ 1) :=
  ensemble_confidence_spec VotingMethod.weighted_average 1 (1/2) 10
    [⟨exA, 1⟩] (by norm_num) _
    (by norm_num [ensemble_fuse, group_similar_matches, groupLoop, fuse_group, listMean,
      List.insertionSort, List.orderedInsert, wStartLE, simGE, exA, List.filterMap])

/-- Audio buffers live in an explicit heap (buffers indexed by allocation
order), so that Python object aliasing is visible: numpy arrays are
mutable heap objects and `SegmentCache` stores references to them. -/
abbrev Heap : Type := List (List ℚ)

/-- Reads the buffer a reference points to. -/
def readBuf (h : Heap) (r : ℕ) : List ℚ := List.getD h r []

/-- Writes a buffer through a reference, as an in-place numpy mutation
would. -/
def writeBuf (h : Heap) (r : ℕ) (v : List ℚ) : Heap := List.set h r v

/-- Embeds the state of `SegmentCache` (src/core/synthesis/cache.py): an
insertion/access-ordered association list (mirroring `OrderedDict`, oldest
first) from keys to (buffer reference, sample rate), plus the capacity and
the hit/miss counters.  Keys stand for the md5 digest of
`(source_file, start_time, end_time)`. -/
structure SegmentCache (κ : Type) where
  max_size : ℕ
  entries : List (κ × ℕ × ℕ)
  hits : ℕ
  misses : ℕ

/-- Embeds `SegmentCache.get`: on a hit, bump the hit counter, move the
entry to the most-recently-used end (`move_to_end`), and return the stored
buffer reference and sample rate unchanged — the source returns
`self.cache[key]` itself, not a copy; on a miss bump the miss counter. -/
def cache_get {κ : Type} [DecidableEq κ] (c : SegmentCache κ) (k : κ) :
    Option (ℕ × ℕ) × SegmentCache κ :=
  match c.entries.find? (fun e => decide (e.1 = k)) with
  | some e =>
    (some e.2,
      { c with
        entries := c.entries.eraseP (fun e2 => decide (e2.1 = k)) ++ [e]
        hits := c.hits + 1 })
  | none => (none, { c with misses := c.misses + 1 })

/-- Embeds `SegmentCache.put`: when the cache is at (or above) capacity the
oldest entry — the front of the order — is deleted first (deleting from an
empty `OrderedDict` raises `StopIteration`, modelled as `none`); then the
value, a fresh copy of the passed buffer (`segment.copy()`) allocated at
the end of the heap, is assigned to the key; assigning to a key already
present overwrites it in place without moving it. -/
def cache_put {κ : Type} [DecidableEq κ] (h : Heap) (c : SegmentCache κ)
    (k : κ) (buf : ℕ) (sample_rate : ℕ) : Option (Heap × SegmentCache κ) :=
  let evicted : Option (List (κ × ℕ × ℕ)) :=
    if c.max_size ≤ c.entries.length then
      match c.entries with
      | [] => none
      | _ :: rest => some rest
    else some c.entries
  match evicted with
  | none => none
  | some ents =>
    let new_ref := List.length h
    let h2 : Heap := List.append h [readBuf h buf]
    let ents2 :=
      if ents.any (fun e => decide (e.1 = k)) then
        ents.map (fun e => if e.1 = k then (k, new_ref, sample_rate) else e)
      else ents ++ [(k, new_ref, sample_rate)]
    some (h2, { c with entries := ents2 })

/-- One cache operation: a lookup or an insertion. -/
inductive CacheOp (κ : Type)
  | get (k : κ)
  | put (k : κ) (buf : ℕ) (sample_rate : ℕ)

/-- Runs a sequence of cache operations, threading the heap and the cache
state; `none` when an insertion faults. -/
def run_ops {κ : Type} [DecidableEq κ] :
    Heap → SegmentCache κ → List (CacheOp κ) → Option (Heap × SegmentCache κ)
  | h, c, [] => some (h, c)
  | h, c, .get k :: ops => run_ops h (cache_get c k).2 ops
  | h, c, .put k b sr :: ops =>
    match cache_put h c k b sr with
    | none => none
    | some (h2, c2) => run_ops h2 c2 ops

/-- The insertion operations for a list of (key, buffer, rate) triples. -/
def putOps {κ : Type} (l : List (κ × ℕ × ℕ)) : List (CacheOp κ) :=
  l.map fun e => CacheOp.put e.1 e.2.1 e.2.2

theorem cache_get_entries_length {κ : Type} [DecidableEq κ]
    (c : SegmentCache κ) (k : κ) :
    (cache_get c k).2.entries.length = c.entries.length := by
  unfold cache_get
  cases hf : c.entries.find? (fun e => decide (e.1 = k)) with
  | none => rfl
  | some e =>
    have hm := List.mem_of_find?_eq_some hf
    have hp := List.find?_some hf
    have hpos : 0 < c.entries.length := List.length_pos_of_mem hm
    have herase := List.length_eraseP_of_mem (p := fun e2 => decide (e2.1 = k)) hm hp
    simp only [List.length_append, herase, List.length_singleton]
    omega

theorem cache_get_max_size {κ : Type} [DecidableEq κ]
    (c : SegmentCache κ) (k : κ) :
    (cache_get c k).2.max_size = c.max_size := by
  unfold cache_get
  cases hf : c.entries.find? (fun e => decide (e.1 = k)) <;> rfl

theorem cache_put_entries_length {κ : Type} [DecidableEq κ]
    {h : Heap} {c : SegmentCache κ} {k : κ} {b sr : ℕ}
    {h2 : Heap} {c2 : SegmentCache κ}
    (hres : cache_put h c k b sr = some (h2, c2))
    (hlen : c.entries.length ≤ c.max_size) :
    c2.entries.length ≤ c.max_size ∧ c2.max_size = c.max_size := by
  unfold cache_put at hres
  split at hres
  · next hfull =>
    cases hent : c.entries with
    | nil =>
      rw [hent] at hres
      exact absurd hres (by simp)
    | cons e0 rest =>
      rw [hent] at hres
      simp only [Option.some.injEq, Prod.mk.injEq] at hres
      rcases hres with ⟨_, hc2⟩
      have hrest : rest.length + 1 = c.entries.length := by
        rw [hent]
        rfl
      constructor
      · rw [← hc2]
        split
        · next =>
          simp only [List.length_map]
          omega
        · next =>
          simp only [List.length_append, List.length_singleton]
          omega
      · rw [← hc2]
  · next hroom =>
    simp only [Option.some.injEq, Prod.mk.injEq] at hres
    rcases hres with ⟨_, hc2⟩
    push_neg at hroom
    constructor
    · rw [← hc2]
      split
      · next =>
        simp only [List.length_map]
        omega
      · next =>
        simp only [List.length_append, List.length_singleton]
        omega
    · rw [← hc2]

/-- The capacity invariant: starting below capacity, no sequence of cache
operations can push the number of stored entries past `max_size`. -/
theorem run_ops_entries_length {κ : Type} [DecidableEq κ] :
    ∀ (ops : List (CacheOp κ)) (h : Heap) (c : SegmentCache κ)
      (h2 : Heap) (c2 : SegmentCache κ),
      c.entries.length ≤ c.max_size → run_ops h c ops = some (h2, c2) →
      c2.entries.length ≤ c.max_size ∧ c2.max_size = c.max_size
  | [], h, c, h2, c2, hlen, hrun => by
    unfold run_ops at hrun
    simp only [Option.some.injEq, Prod.mk.injEq] at hrun
    rw [← hrun.2]
    exact ⟨hlen, rfl⟩
  | .get k :: ops, h, c, h2, c2, hlen, hrun => by
    unfold run_ops at hrun
    have hstep : (cache_get c k).2.entries.length ≤ (cache_get c k).2.max_size := by
      rw [cache_get_entries_length, cache_get_max_size]
      exact hlen
    have hrec := run_ops_entries_length ops h (cache_get c k).2 h2 c2 hstep hrun
    rw [cache_get_max_size] at hrec
    exact hrec
  | .put k b sr :: ops, h, c, h2, c2, hlen, hrun => by
    unfold run_ops at hrun
    cases hput : cache_put h c k b sr with
    | none =>
      rw [hput] at hrun
      exact absurd hrun (by simp)
    | some hc3 =>
      rw [hput] at hrun
      rcases cache_put_entries_length hput hlen with ⟨hl3, hm3⟩
      have hrec := run_ops_entries_length ops hc3.1 hc3.2 h2 c2 (by rw [hm3]; exact hl3) hrun
      rw [hm3] at hrec
      exact hrec

theorem run_ops_append {κ : Type} [DecidableEq κ] :
    ∀ (ops1 ops2 : List (CacheOp κ)) (h : Heap) (c : SegmentCache κ),
      run_ops h c (ops1 ++ ops2) =
        match run_ops h c ops1 with
        | none => none
        | some (h2, c2) => run_ops h2 c2 ops2
  | [], ops2, h, c => rfl
  | .get k :: ops1, ops2, h, c => by
    show run_ops h (cache_get c k).2 (ops1 ++ ops2) =
      match run_ops h (cache_get c k).2 ops1 with
      | none => none
      | some (h2, c2) => run_ops h2 c2 ops2
    exact run_ops_append ops1 ops2 h (cache_get c k).2
  | .put k b sr :: ops1, ops2, h, c => by
    show (match cache_put h c k b sr with
          | none => none
          | some (h2, c2) => run_ops h2 c2 (ops1 ++ ops2)) =
      match (match cache_put h c k b sr with
             | none => none
             | some (h2, c2) => run_ops h2 c2 ops1) with
      | none => none
      | some (h2, c2) => run_ops h2 c2 ops2
    cases cache_put h c k b sr with
    | none => rfl
    | some pr =>
      obtain ⟨h3, c3⟩ := pr
      exact run_ops_append ops1 ops2 h3 c3

/-- Filling phase: inserting fresh keys while below capacity appends them
in order without any eviction. -/
theorem run_ops_put_fill {κ : Type} [DecidableEq κ] :
    ∀ (l : List (κ × ℕ × ℕ)) (h : Heap) (c : SegmentCache κ),
      (c.entries.map Prod.fst ++ l.map Prod.fst).Nodup →
      c.entries.length + l.length ≤ c.max_size →
      ∃ h2 c2, run_ops h c (putOps l) = some (h2, c2) ∧
        c2.entries.map Prod.fst = c.entries.map Prod.fst ++ l.map Prod.fst ∧
        c2.max_size = c.max_size
  | [], h, c, _, _ => ⟨h, c, rfl, by simp, rfl⟩
  | (k, b, sr) :: l, h, c, hnd, hlen => by
    have hroom : ¬ (c.max_size ≤ c.entries.length) := by
      simp only [List.length_cons] at hlen
      omega
    have hknotin : ∀ e ∈ c.entries, ¬ (e.1 = k) := by
      intro e he hek
      have hdisj := List.disjoint_of_nodup_append hnd
      exact hdisj (List.mem_map_of_mem Prod.fst he)
        (by rw [← hek] at *; simp)
    have hany : c.entries.any (fun e => decide (e.1 = k)) = false := by
      rw [List.any_eq_false]
      intro e he
      simp only [decide_eq_true_eq]
      exact hknotin e he
    have hput : cache_put h c k b sr =
        some (List.append h [readBuf h b],
          { c with entries := c.entries ++ [(k, List.length h, sr)] }) := by
      unfold cache_put
      rw [if_neg hroom]
      show some _ = _
      rw [hany]
      simp only [Bool.false_eq_true, if_false]
    have hnd2 : (({ c with entries := c.entries ++ [(k, List.length h, sr)] } :
        SegmentCache κ).entries.map Prod.fst ++ l.map Prod.fst).Nodup := by
      simp only [List.map_append, List.map_singleton, List.append_assoc,
        List.singleton_append]
      simpa using hnd
    have hlen2 : ({ c with entries := c.entries ++ [(k, List.length h, sr)] } :
        SegmentCache κ).entries.length + l.length ≤ c.max_size := by
      simp only [List.length_append, List.length_singleton]
      simp only [List.length_cons] at hlen
      omega
    rcases run_ops_put_fill l (List.append h [readBuf h b])
        { c with entries := c.entries ++ [(k, List.length h, sr)] } hnd2 hlen2 with
      ⟨h2, c2, hrun, hkeys, hmax⟩
    refine ⟨h2, c2, ?_, ?_, hmax⟩
    · show run_ops h c (CacheOp.put k b sr :: putOps l) = some (h2, c2)
      unfold run_ops
      rw [hput]
      exact hrun
    · rw [hkeys]
      simp [List.append_assoc]

/-- On a hit, `get` moves the entry for the key to the most-recently-used
(last) position, returning exactly its stored reference and rate. -/
theorem cache_get_promotes {κ : Type} [DecidableEq κ]
    (c : SegmentCache κ) (k : κ) (r sr : ℕ)
    (hhit : (cache_get c k).1 = some (r, sr)) :
    (cache_get c k).2.entries.getLast? = some (k, r, sr) := by
  unfold cache_get at hhit ⊢
  cases hf : c.entries.find? (fun e => decide (e.1 = k)) with
  | none =>
    rw [hf] at hhit
    exact absurd hhit (by simp)
  | some e =>
    rw [hf] at hhit
    simp only [Option.some.injEq] at hhit
    have hk : e.1 = k := by
      have hp := List.find?_some hf
      simpa using hp
    rw [List.getLast?_concat]
    have he : e = (k, r, sr) := by
      rcases e with ⟨e1, e2⟩
      have hk2 : e1 = k := hk
      have hh2 : e2 = (r, sr) := hhit
      rw [hk2, hh2]
    rw [he]

/-- Inserting `max_size` fresh keys into an empty cache and then one more
fresh key evicts exactly the first-inserted key: the final entries are the
last `max_size` keys in insertion order. -/
theorem cache_eviction_scenario {κ : Type} [DecidableEq κ]
    (max_size : ℕ) (l1 : List (κ × ℕ × ℕ)) (e : κ × ℕ × ℕ) (h : Heap)
    (hmax : 0 < max_size) (hlen : l1.length = max_size)
    (hnd : ((l1 ++ [e]).map Prod.fst).Nodup) :
    ∃ h2 c2, run_ops h ⟨max_size, [], 0, 0⟩ (putOps (l1 ++ [e])) = some (h2, c2) ∧
      c2.entries.map Prod.fst = ((l1 ++ [e]).map Prod.fst).drop 1 ∧
      c2.entries.length = max_size := by
  have hnd1 : (([] : List κ) ++ l1.map Prod.fst).Nodup := by
    rw [List.nil_append]
    rw [List.map_append] at hnd
    exact hnd.of_append_left
  rcases run_ops_put_fill l1 h ⟨max_size, [], 0, 0⟩ (by simpa using hnd1)
      (by simp [hlen]) with ⟨h1, c1, hrun1, hkeys1, hmax1⟩
  simp only [List.map_nil, List.nil_append] at hkeys1
  have hlen1 : c1.entries.length = max_size := by
    have := congrArg List.length hkeys1
    simpa [hlen] using this
  cases hent : c1.entries with
  | nil =>
    rw [hent] at hlen1
    exact absurd hlen1.symm (by simpa using Nat.ne_of_gt hmax)
  | cons e0 rest =>
    have hfull : c1.max_size ≤ c1.entries.length := by
      rw [hmax1, hlen1]
    have hkeysrest : l1.map Prod.fst = e0.1 :: rest.map Prod.fst := by
      rw [← hkeys1, hent]
      rfl
    have hfresh : ∀ e2 ∈ rest, ¬ (e2.1 = e.1) := by
      intro e2 he2 heq
      rw [List.map_append] at hnd
      have hdisj := List.disjoint_of_nodup_append hnd
      have hmem1 : e.1 ∈ l1.map Prod.fst := by
        rw [hkeysrest, ← heq]
        exact List.mem_cons_of_mem _ (List.mem_map_of_mem Prod.fst he2)
      exact hdisj hmem1 (by simp)
    have hany : rest.any (fun e2 => decide (e2.1 = e.1)) = false := by
      rw [List.any_eq_false]
      intro e2 he2
      simp only [decide_eq_true_eq]
      exact hfresh e2 he2
    have hput : cache_put h1 c1 e.1 e.2.1 e.2.2 =
        some (List.append h1 [readBuf h1 e.2.1],
          { c1 with entries := rest ++ [(e.1, List.length h1, e.2.2)] }) := by
      unfold cache_put
      rw [if_pos hfull, hent]
      show some _ = _
      rw [hany]
      simp only [Bool.false_eq_true, if_false]
    refine ⟨List.append h1 [readBuf h1 e.2.1],
      { c1 with entries := rest ++ [(e.1, List.length h1, e.2.2)] }, ?_, ?_, ?_⟩
    · have hsplit : putOps (κ := κ) (l1 ++ [e]) = putOps l1 ++ putOps [e] := by
        unfold putOps
        rw [List.map_append]
      rw [hsplit, run_ops_append, hrun1]
      show (match cache_put h1 c1 e.1 e.2.1 e.2.2 with
            | none => none
            | some (h2, c2) => run_ops h2 c2 []) = _
      rw [hput]
      rfl
    · show (rest ++ [(e.1, List.length h1, e.2.2)]).map Prod.fst = _
      rw [List.map_append, List.map_append, hkeysrest]
      rfl
    · show (rest ++ [(e.1, List.length h1, e.2.2)]).length = max_size
      rw [List.length_append, List.length_singleton]
      rw [hent] at hlen1
      simp only [List.length_cons] at hlen1
      omega

/-- C4: the cache never exceeds its (positive) capacity under any
operation sequence; inserting `max_size + 1` distinct keys into an empty
cache leaves exactly `max_size` entries with the first-inserted key
evicted; and a hit promotes its entry to the most-recently-used end. -/
theorem cache_capacity_lru_spec {κ : Type} [DecidableEq κ] (max_size : ℕ)
    (hmax : 0 < max_size) :
    (∀ (ops : List (CacheOp κ)) (h h2 : Heap) (c c2 : SegmentCache κ),
      c.max_size = max_size → c.entries.length ≤ max_size →
      run_ops h c ops = some (h2, c2) → c2.entries.length ≤ max_size) ∧
    (∀ (l1 : List (κ × ℕ × ℕ)) (e : κ × ℕ × ℕ) (h : Heap),
      l1.length = max_size → ((l1 ++ [e]).map Prod.fst).Nodup →
      ∃ h2 c2, run_ops h ⟨max_size, [], 0, 0⟩ (putOps (l1 ++ [e])) = some (h2, c2) ∧
        c2.entries.map Prod.fst = ((l1 ++ [e]).map Prod.fst).drop 1 ∧
        c2.entries.length = max_size) ∧
    (∀ (c : SegmentCache κ) (k : κ) (r sr : ℕ),
      (cache_get c k).1 = some (r, sr) →
      (cache_get c k).2.entries.getLast? = some (k, r, sr)) := by
  refine ⟨?_, ?_, ?_⟩
  · intro ops h h2 c c2 hcm hcl hrun
    have := run_ops_entries_length ops h c h2 c2 (by rw [hcm]; exact hcl) hrun
    rw [hcm] at this
    exact this.1
  · intro l1 e h hlen hnd
    exact cache_eviction_scenario max_size l1 e h hmax hlen hnd
  · intro c k r sr hhit
    exact cache_get_promotes c k r sr hhit

/-- C4 witness: the eviction scenario at capacity 1 with two distinct
natural-number keys. -/
theorem cache_capacity_lru_spec_witness :
    ∃ h2 c2, run_ops [] (⟨1, [], 0, 0⟩ : SegmentCache ℕ)
        (putOps ([((0 : ℕ), 0, 0)] ++ [(1, 0, 0)])) = some (h2, c2) ∧
      c2.entries.map Prod.fst = (([((0 : ℕ), 0, 0)] ++ [(1, 0, 0)]).map Prod.fst).drop 1 ∧
      c2.entries.length = 1 :=
  (cache_capacity_lru_spec 1 (by decide)).2.1 [(0, 0, 0)] (1, 0, 0) []
    (by decide) (by decide)

/-- The pair returned by a cache hit is exactly the stored entry: the
reference handed out aliases the buffer the cache keeps. -/
theorem cache_get_entry_mem {κ : Type} [DecidableEq κ]
    (c : SegmentCache κ) (k : κ) (r sr : ℕ)
    (hhit : (cache_get c k).1 = some (r, sr)) :
    (k, r, sr) ∈ c.entries := by
  unfold cache_get at hhit
  cases hf : c.entries.find? (fun e => decide (e.1 = k)) with
  | none =>
    rw [hf] at hhit
    exact absurd hhit (by simp)
  | some e =>
    rw [hf] at hhit
    simp only [Option.some.injEq] at hhit
    have hk : e.1 = k := by
      have hp := List.find?_some hf
      simpa using hp
    have he : e = (k, r, sr) := by
      rcases e with ⟨e1, e2⟩
      have hk2 : e1 = k := hk
      have hh2 : e2 = (r, sr) := hhit
      rw [hk2, hh2]
    rw [← he]
    exact List.mem_of_find?_eq_some hf

/-- `put` stores a fresh copy: the new entry points at a newly allocated
heap cell holding the contents of the passed buffer, distinct from the
passed reference, so mutating the passed buffer afterwards does not affect
what the cache holds. -/
theorem cache_put_copies {κ : Type} [DecidableEq κ]
    {h : Heap} {c : SegmentCache κ} {k : κ} {b sr : ℕ}
    {h2 : Heap} {c2 : SegmentCache κ}
    (hb : b < List.length h)
    (hres : cache_put h c k b sr = some (h2, c2)) :
    (k, List.length h, sr) ∈ c2.entries ∧ List.length h ≠ b ∧
    readBuf h2 (List.length h) = readBuf h b ∧
    ∀ v, readBuf (writeBuf h2 b v) (List.length h) = readBuf h b := by
  have hread : ∀ hh : Heap, hh = List.append h [readBuf h b] →
      readBuf hh (List.length h) = readBuf h b := by
    intro hh hhh
    subst hhh
    show List.getD _ _ _ = _
    rw [List.getD_eq_getElem?_getD]
    show ((h ++ [readBuf h b])[List.length h]?).getD [] = _
    rw [List.getElem?_concat_length]
    rfl
  have hmain : h2 = List.append h [readBuf h b] ∧
      (k, List.length h, sr) ∈ c2.entries := by
    unfold cache_put at hres
    split at hres
    · next =>
      cases hent : c.entries with
      | nil =>
        rw [hent] at hres
        exact absurd hres (by simp)
      | cons e0 rest =>
        rw [hent] at hres
        simp only [Option.some.injEq, Prod.mk.injEq] at hres
        rcases hres with ⟨hh2, hc2⟩
        refine ⟨hh2.symm, ?_⟩
        rw [← hc2]
        split
        · next hany =>
          simp only [List.any_eq_true, decide_eq_true_eq] at hany
          rcases hany with ⟨e, he, hek⟩
          refine List.mem_map.2 ⟨e, he, ?_⟩
          rw [if_pos hek]
        · next =>
          exact List.mem_append_right _ (List.mem_singleton_self _)
    · next =>
      simp only [Option.some.injEq, Prod.mk.injEq] at hres
      rcases hres with ⟨hh2, hc2⟩
      refine ⟨hh2.symm, ?_⟩
      rw [← hc2]
      split
      · next hany =>
        simp only [List.any_eq_true, decide_eq_true_eq] at hany
        rcases hany with ⟨e, he, hek⟩
        refine List.mem_map.2 ⟨e, he, ?_⟩
        rw [if_pos hek]
      · next =>
        exact List.mem_append_right _ (List.mem_singleton_self _)
  have hneq : List.length h ≠ b := Nat.ne_of_gt hb
  refine ⟨hmain.2, hneq, hread h2 hmain.1, ?_⟩
  intro v
  show List.getD _ _ _ = _
  rw [List.getD_eq_getElem?_getD]
  show ((writeBuf h2 b v)[List.length h]?).getD [] = _
  rw [writeBuf, List.getElem?_set_ne (Ne.symm hneq)]
  have := hread h2 hmain.1
  rw [readBuf, List.getD_eq_getElem?_getD] at this
  exact this

/-- Concrete heap for the cache-aliasing counterexample: one buffer
holding the single sample `0.5`. -/
def exHeap : Heap := [[1/2]]

/-- Empty cache with the default capacity 100. -/
def exCache : SegmentCache ℕ := ⟨100, [], 0, 0⟩

/-- Inserting the buffer under key 7 copies it to a fresh heap cell
(reference 1) and records that reference. -/
theorem cache_put_exHeap :
    cache_put exHeap exCache 7 0 44100 =
      some ([[1/2], [1/2]], ⟨100, [(7, 1, 44100)], 0, 0⟩) := rfl

/-- C5: the claim as stated is false: `get` hands back the stored buffer
itself, not a clone, so writing through the returned reference changes the
buffer held inside the cache (which any later `get` of the same key
returns again). -/
theorem cache_get_clone_counterexample :
    (cache_get (⟨100, [(7, 1, 44100)], 0, 0⟩ : SegmentCache ℕ) 7).1 = some (1, 44100) ∧
    (cache_get ((cache_get (⟨100, [(7, 1, 44100)], 0, 0⟩ : SegmentCache ℕ) 7).2) 7).1 =
      some (1, 44100) ∧
    readBuf (writeBuf [[1/2], [1/2]] 1 [9/10]) 1 ≠ readBuf [[1/2], [1/2]] 1 := by
  refine ⟨rfl, rfl, ?_⟩
  show ([9/10] : List ℚ) ≠ [1/2]
  intro hcontra
  rw [List.cons.injEq] at hcontra
  norm_num at hcontra

/-- C5 (amended): a cache hit returns exactly the stored (reference, rate)
pair — an alias of the cached buffer, not a clone — while `put` stores a
fresh copy of the passed buffer, so mutating the buffer passed to `put`
afterwards leaves the cached contents unchanged. -/
theorem cache_get_aliases_put_copies {κ : Type} [DecidableEq κ] :
    (∀ (c : SegmentCache κ) (k : κ) (r sr : ℕ),
      (cache_get c k).1 = some (r, sr) → (k, r, sr) ∈ c.entries) ∧
    (∀ (h : Heap) (c : SegmentCache κ) (k : κ) (b sr : ℕ)
      (h2 : Heap) (c2 : SegmentCache κ),
      b < List.length h → cache_put h c k b sr = some (h2, c2) →
      (k, List.length h, sr) ∈ c2.entries ∧ List.length h ≠ b ∧
      readBuf h2 (List.length h) = readBuf h b ∧
      ∀ v, readBuf (writeBuf h2 b v) (List.length h) = readBuf h b) :=
  ⟨fun c k r sr hhit => cache_get_entry_mem c k r sr hhit,
   fun _ _ _ _ _ _ _ hb hres => cache_put_copies hb hres⟩

/-- C5 witness: the aliasing direction at a concrete hit. -/
theorem cache_get_aliases_put_copies_witness :
    ((7 : ℕ), 1, 44100) ∈ (⟨100, [(7, 1, 44100)], 0, 0⟩ : SegmentCache ℕ).entries :=
  (cache_get_aliases_put_copies (κ := ℕ)).1 ⟨100, [(7, 1, 44100)], 0, 0⟩ 7 1 44100 rfl

/-- Embeds the search-and-select stage of `CollageEngine.synthesize`
(src/core/synthesis/engine.py): concatenate the per-source-file match
lists, raise (`ValueError`) when no match was found across all sources,
otherwise sort all matches by similarity descending and take the first as
the best match. -/
def select_best (per_source : List (List SimilarityMatch)) :
    Except String SimilarityMatch :=
  let all_matches := per_source.flatten
  match List.insertionSort simGE all_matches with
  | [] => Except.error "no similar segments found"
  | best :: _ => Except.ok best

/-- C7: `synthesize` raises the no-match error iff the search produced
zero matches across all sources, and otherwise the selected match is a
global argmax of similarity over all sources' matches. -/
theorem select_best_spec (per_source : List (List SimilarityMatch)) :
    ((∃ e, select_best per_source = Except.error e) ↔ per_source.flatten = []) ∧
    (∀ m, select_best per_source = Except.ok m →
      m ∈ per_source.flatten ∧
      ∀ m2 ∈ per_source.flatten, m2.similarity ≤ m.similarity) := by
  have hperm := List.perm_insertionSort simGE per_source.flatten
  cases hs : List.insertionSort simGE per_source.flatten with
  | nil =>
    have hsel : select_best per_source = Except.error "no similar segments found" := by
      show (match List.insertionSort simGE per_source.flatten with
            | [] => Except.error "no similar segments found"
            | best :: _ => Except.ok best) = _
      rw [hs]
    rw [hs] at hperm
    have hnil : per_source.flatten = [] := hperm.symm.eq_nil
    constructor
    · constructor
      · intro _
        exact hnil
      · intro _
        exact ⟨"no similar segments found", hsel⟩
    · intro m hm
      rw [hsel] at hm
      exact absurd hm (by simp)
  | cons best rest =>
    have hsel : select_best per_source = Except.ok best := by
      show (match List.insertionSort simGE per_source.flatten with
            | [] => Except.error "no similar segments found"
            | best :: _ => Except.ok best) = _
      rw [hs]
    rw [hs] at hperm
    constructor
    · constructor
      · intro he
        rcases he with ⟨e, he⟩
        rw [hsel] at he
        exact absurd he (by simp)
      · intro hnil
        rw [hnil] at hperm
        exact absurd hperm.eq_nil (by simp)
    · intro m hm
      rw [hsel] at hm
      simp only [Except.ok.injEq] at hm
      subst hm
      have hsorted := List.sorted_insertionSort simGE per_source.flatten
      rw [hs] at hsorted
      constructor
      · exact hperm.mem_iff.1 (List.mem_cons_self _ _)
      · intro m2 hm2
        have hm2s : m2 ∈ best :: rest := hperm.mem_iff.2 hm2
        rcases List.mem_cons.1 hm2s with h1 | h1
        · subst h1
          exact le_refl _
        · exact List.rel_of_sorted_cons hsorted m2 h1

/-- C7 witness: on two singleton sources the higher-similarity match is
selected and dominates all matches. -/
theorem select_best_spec_witness :
    exA ∈ ([[exB], [exA]] : List (List SimilarityMatch)).flatten ∧
    ∀ m2 ∈ ([[exB], [exA]] : List (List SimilarityMatch)).flatten,
      m2.similarity ≤ exA.similarity :=
  (select_best_spec [[exB], [exA]]).2 exA
    (by norm_num [select_best, List.insertionSort, List.orderedInsert, simGE, exA, exB])

/-- Embeds the final normalization of `CollageEngine.synthesize`
(src/core/synthesis/engine.py): compute the peak absolute sample
(`np.abs(adjusted).max()` faults on an empty buffer, modelled as `none`)
and rescale the buffer to a `0.99` peak only when the peak exceeds `1.0`,
else return it unchanged. -/
def final_normalize : List ℚ → Option (List ℚ)
  | [] => none
  | x :: xs =>
    let max_val := xs.foldl (fun acc v => max acc |v|) |x|
    some (if 1 < max_val then (x :: xs).map (fun v => v / max_val * (99/100))
          else x :: xs)

theorem foldl_max_abs_bounds (xs : List ℚ) :
    ∀ b : ℚ, b ≤ xs.foldl (fun acc v => max acc |v|) b ∧
      ∀ v ∈ xs, |v| ≤ xs.foldl (fun acc v => max acc |v|) b := by
  induction xs with
  | nil =>
    intro b
    exact ⟨le_refl b, fun v hv => absurd hv (List.not_mem_nil v)⟩
  | cons y ys ih =>
    intro b
    rcases ih (max b |y|) with ⟨hb, hmem⟩
    refine ⟨le_trans (le_max_left b |y|) hb, ?_⟩
    intro v hv
    rcases List.mem_cons.1 hv with h1 | h1
    · subst h1
      exact le_trans (le_max_right b |v|) hb
    · exact hmem v h1

/-- C8: every buffer returned by the final NORMALIZE stage has no sample
of absolute value above 1: a peak above 1 triggers rescaling to 0.99,
otherwise the buffer passes through (already within 1). -/
theorem final_normalize_no_clipping (buf out : List ℚ)
    (hres : final_normalize buf = some out) : ∀ v ∈ out, |v| ≤ 1 := by
  cases buf with
  | nil => exact absurd hres (by simp [final_normalize])
  | cons x xs =>
    unfold final_normalize at hres
    simp only [Option.some.injEq] at hres
    rcases foldl_max_abs_bounds xs |x| with ⟨hx, hmem⟩
    set M := xs.foldl (fun acc v => max acc |v|) |x| with hM
    have hall : ∀ v ∈ x :: xs, |v| ≤ M := by
      intro v hv
      rcases List.mem_cons.1 hv with h1 | h1
      · subst h1
        exact hx
      · exact hmem v h1
    rw [← hres]
    split
    · next hgt =>
      intro v hv
      rcases List.mem_map.1 hv with ⟨w, hw, hwv⟩
      have hM0 : (0 : ℚ) < M := lt_trans one_pos hgt
      rw [← hwv, abs_mul, abs_div, abs_of_pos hM0]
      have h1 : |w| / M ≤ 1 := (div_le_one hM0).2 (hall w hw)
      have h2 : |(99 : ℚ)/100| = 99/100 := by norm_num
      rw [h2]
      calc |w| / M * (99/100) ≤ 1 * (99/100) := by
            exact mul_le_mul_of_nonneg_right h1 (by norm_num)
        _ ≤ 1 := by norm_num
    · next hle =>
      intro v hv
      exact le_trans (hall v hv) (le_of_not_lt hle)

/-- C8 witness: a buffer with peak 2 comes back rescaled to 0.99. -/
theorem final_normalize_no_clipping_witness : |(99 : ℚ)/100| ≤ 1 :=
  final_normalize_no_clipping [2] [99/100]
    (by norm_num [final_normalize]) (99/100)
    (by norm_num [final_normalize])

/-- Python `int()` applied to a float: truncation toward zero. -/
def py_int (q : ℚ) : ℤ := if q < 0 then ⌈q⌉ else ⌊q⌋

/-- Embeds the sample-range computation of `SegmentExtractor.extract`
(src/core/synthesis/extractor.py): convert each time with
`int(time * sample_rate)`, clamp the start to at least 0 and the end to at
most the buffer length, then, when the clamped range is shorter than
`min_segment_length`, expand it symmetrically (re-clamping at both ends)
to `int(min_segment_length * sample_rate)` samples. -/
def extract_range (min_segment_length : ℚ) (audio_len : ℕ) (sample_rate : ℕ)
    (start_time end_time : ℚ) : ℤ × ℤ :=
  let start_sample := max 0 (py_int (start_time * sample_rate))
  let end_sample := min (audio_len : ℤ) (py_int (end_time * sample_rate))
  let duration := ((end_sample - start_sample : ℤ) : ℚ) / (sample_rate : ℚ)
  if duration < min_segment_length then
    let needed_samples := py_int (min_segment_length * sample_rate)
    if end_sample - start_sample < needed_samples then
      let diff := needed_samples - (end_sample - start_sample)
      let start_sample2 := max 0 (start_sample - Int.fdiv diff 2)
      let end_sample2 := min (audio_len : ℤ) (start_sample2 + needed_samples)
      (start_sample2, end_sample2)
    else (start_sample, end_sample)
  else (start_sample, end_sample)

/-- Stated from the claim wording (for comparison only): the same
conversion using `round` instead of Python `int` truncation. -/
def claimed_round_range (audio_len : ℕ) (sample_rate : ℕ)
    (start_time end_time : ℚ) : ℤ × ℤ :=
  (max 0 (round (start_time * (sample_rate : ℚ))),
   min (audio_len : ℤ) (round (end_time * (sample_rate : ℚ))))

theorem floor_59_10 : ⌊(59 : ℚ)/100 * ((10 : ℕ) : ℚ)⌋ = 5 := by
  rw [show ((59 : ℚ)/100 * ((10 : ℕ) : ℚ)) = 59/10 by norm_num]
  rw [Int.floor_eq_iff]
  norm_num

theorem round_59_10 : round ((59 : ℚ)/100 * ((10 : ℕ) : ℚ)) = 6 := by
  rw [show ((59 : ℚ)/100 * ((10 : ℕ) : ℚ)) = 59/10 by norm_num]
  rw [round_eq]
  rw [show ((59 : ℚ)/10 + 1/2) = 64/10 by norm_num]
  rw [Int.floor_eq_iff]
  norm_num

/-- C9: the claim as stated is false: the extractor truncates
(`int(time * rate)`), it does not round.  At `end_time = 0.59` with rate
10 the code takes sample index 5 while rounding gives 6. -/
theorem extract_range_round_counterexample :
    extract_range (1/10) 100 10 0 (59/100) ≠ claimed_round_range 100 10 0 (59/100) := by
  have hcode : extract_range (1/10) 100 10 0 (59/100) = (0, 5) := by
    unfold extract_range py_int
    rw [show ((0 : ℚ) * ((10 : ℕ) : ℚ)) = 0 by norm_num]
    norm_num [floor_59_10]
  have hclaim : claimed_round_range 100 10 0 (59/100) = (0, 6) := by
    unfold claimed_round_range
    rw [round_59_10]
    rw [show ((0 : ℚ) * ((10 : ℕ) : ℚ)) = 0 by norm_num]
    norm_num
  rw [hcode, hclaim]
  intro hcontra
  rw [Prod.mk.injEq] at hcontra
  omega

/-- C9 (amended): the extractor converts each time as
`int(time x rate)` (truncation toward zero), clamps the start to at least 0
and the end to at most the buffer length — these clamped indices are the
final range whenever it is not shorter than `min_segment_length` — and in
every case the returned range stays within the buffer bounds. -/
theorem extract_range_spec (msl : ℚ) (audio_len sample_rate : ℕ) (s e : ℚ)
    (_hrate : 0 < sample_rate) :
    (msl ≤ ((min (audio_len : ℤ) (py_int (e * sample_rate)) -
          max 0 (py_int (s * sample_rate)) : ℤ) : ℚ) / (sample_rate : ℚ) →
      extract_range msl audio_len sample_rate s e =
        (max 0 (py_int (s * sample_rate)),
         min (audio_len : ℤ) (py_int (e * sample_rate)))) ∧
    0 ≤ (extract_range msl audio_len sample_rate s e).1 ∧
    (extract_range msl audio_len sample_rate s e).2 ≤ (audio_len : ℤ) := by
  refine ⟨?_, ?_⟩
  · intro hdur
    unfold extract_range
    rw [if_neg (not_lt.2 hdur)]
  · unfold extract_range
    dsimp only
    split
    · split
      · exact ⟨le_max_left 0 _, min_le_left _ _⟩
      · exact ⟨le_max_left 0 _, min_le_left _ _⟩
    · exact ⟨le_max_left 0 _, min_le_left _ _⟩

/-- C9 witness: the no-expansion branch at rate 10 over a 100-sample
buffer. -/
theorem extract_range_spec_witness :
    extract_range (1/10) 100 10 0 (59/100) =
      (max 0 (py_int (0 * ((10 : ℕ) : ℚ))),
       min ((100 : ℕ) : ℤ) (py_int ((59/100 : ℚ) * ((10 : ℕ) : ℚ)))) :=
  (extract_range_spec (1/10) 100 10 0 (59/100) (by norm_num)).1
    (by
      unfold py_int
      rw [show ((0 : ℚ) * ((10 : ℕ) : ℚ)) = 0 by norm_num]
      norm_num [floor_59_10])

/-- The frame-to-frame cost of `MFCCSimilarity._dtw_distance`
(src/algorithms/traditional/mfcc.py): Euclidean distance between column
`i` of the first feature matrix and column `j` of the second, over `d`
feature rows. -/
noncomputable def frame_cost (d : ℕ) (F G : ℕ → ℕ → ℝ) (i j : ℕ) : ℝ :=
  Real.sqrt (∑ k ∈ Finset.range d, (F k i - G k j)^2)

/-- The DTW dynamic-programming matrix of `_dtw_distance`: `D[0][0] = 0`,
the rest of row 0 and column 0 are `+inf`, and
`D[i][j] = cost(i-1, j-1) + min(D[i-1][j], D[i][j-1], D[i-1][j-1])`.
Values live in the extended nonnegative reals, matching the float
arithmetic with `np.inf` on nonnegative costs. -/
noncomputable def dtw_matrix (cost : ℕ → ℕ → ℝ) : ℕ → ℕ → ENNReal
  | 0, 0 => 0
  | 0, _ + 1 => ⊤
  | _ + 1, 0 => ⊤
  | i + 1, j + 1 =>
    ENNReal.ofReal (cost i j) +
      min (dtw_matrix cost i (j + 1)) (min (dtw_matrix cost (i + 1) j) (dtw_matrix cost i j))
termination_by i j => i + j

/-- Embeds `MFCCSimilarity._dtw_distance`: the bottom-right DP entry for
an `n`-frame and an `m`-frame feature matrix with `d` rows, normalized by
the path length `n + m`. -/
noncomputable def dtw_distance (d n m : ℕ) (F G : ℕ → ℕ → ℝ) : ENNReal :=
  dtw_matrix (frame_cost d F G) n m / ((n : ENNReal) + (m : ENNReal))

/-- Along the diagonal of a zero-diagonal cost, the DP matrix stays 0. -/
theorem dtw_matrix_diag_zero (cost : ℕ → ℕ → ℝ)
    (hdiag : ∀ i, cost i i = 0) : ∀ k, dtw_matrix cost k k = 0
  | 0 => by rw [dtw_matrix]
  | k + 1 => by
    rw [dtw_matrix, hdiag k, dtw_matrix_diag_zero cost hdiag k]
    rw [ENNReal.ofReal_zero, zero_add]
    have h1 : min (dtw_matrix cost (k + 1) k) 0 = 0 := min_eq_right (zero_le _)
    rw [h1]
    exact min_eq_right (zero_le _)

/-- C6: the DTW distance between a non-empty feature matrix and itself is
exactly 0. -/
theorem dtw_distance_self_zero (d n : ℕ) (F : ℕ → ℕ → ℝ) (_hn : 0 < n) :
    dtw_distance d n n F F = 0 := by
  unfold dtw_distance
  rw [dtw_matrix_diag_zero (frame_cost d F F) (fun i => by
    simp [frame_cost, sub_self]) n]
  exact ENNReal.zero_div

/-- C6 witness: the one-frame, one-row zero matrix. -/
theorem dtw_distance_self_zero_witness :
    0 < 1 ∧ dtw_distance 1 1 1 (fun _ _ => 0) (fun _ _ => 0) = 0 :=
  ⟨one_pos, dtw_distance_self_zero 1 1 (fun _ _ => 0) one_pos⟩
